import Mathlib

/-!
# A verification model of the snapshot diff-layer tree

This file embeds, in Lean, the `diffLayer` portion of the repository's
`snapshot` package: the layered in-memory state cache with bloom-filtered
reads, lazy sorted key views, and downward flattening.

Modelling conventions:
* A `Hash` (Go `common.Hash`, 32 bytes) is a list of byte values.
* A Go byte slice that may be `nil` is `Blob := Option (List Nat)`:
  `none` is a nil slice, `some bs` is a non-nil slice with contents `bs`.
* Go maps are association lists looked up by first match; the Go map
  operations used by the source (`m[k]`, `maps.Copy`, `maps.Keys`) are
  modelled by operations with the same lookup/key-set semantics.
* The external bloom-filter library (`holiman/bloomfilter`, not part of
  this repository) is modelled by the exact set of added 64-bit keys:
  `add` conses, `contains` is membership, `copy` is the identity.  This
  keeps the library's only contract the code relies on: no false
  negatives, and `Copy` preserving `Contains`.
* The bloom hasher offsets (`bloomAccountHasherOffset`,
  `bloomStorageHasherOffset`), drawn once per process by `init` from
  `rand.Intn(25)`, appear as explicit parameters `offA`, `offS`.
* The disk layer is not part of the sources; per the spec it is an opaque
  point-lookup collaborator, modelled as a pair of lookup functions.
-/

/-- A 32-byte hash, as its list of byte values. -/
abbrev Hash := List Nat

/-- A Go byte slice: `none` is a nil slice, `some bs` a non-nil slice. -/
abbrev Blob := Option (List Nat)

/-- The length of a Go byte slice: `len` of it (`len(nil) = 0`). -/
def blobLen : Blob → Nat
  | none => 0
  | some bs => bs.length

/-- Go map read `m[k]` on an association list: first matching key. -/
def lookupM {β : Type} (k : Hash) : List (Hash × β) → Option β
  | [] => none
  | (k', v) :: rest => if k = k' then some v else lookupM k rest

/-- Go `maps.Keys m`: the key set of an association list. -/
def keysOf {β : Type} (m : List (Hash × β)) : List Hash :=
  m.map Prod.fst

/-- Go `maps.Copy dst src`: afterwards `src`'s bindings shadow `dst`'s. -/
def mapCopy {β : Type} (dst src : List (Hash × β)) : List (Hash × β) :=
  src ++ dst

/-- One storage-slot map, keyed by slot hash. -/
abbrev SlotMap := List (Hash × Blob)

/-- A storage map: account hash to slot map. -/
abbrev StorMap := List (Hash × SlotMap)

/-- The per-account storage merge loop of `flatten` (lines 567-575): for
each account of the child, either move the inner map over (parent lacks
the account) or copy the child slots over the parent slots. -/
def copyStorage (parent : StorMap) : StorMap → StorMap
  | [] => parent
  | (a, inner) :: rest =>
    match lookupM a parent with
    | none => copyStorage ((a, inner) :: parent) rest
    | some pinner => copyStorage ((a, mapCopy pinner inner) :: parent) rest

/-- The `binary.BigEndian.Uint64` read over a byte window. -/
def beU64 (l : List Nat) : Nat :=
  l.foldl (fun acc b => acc * 256 + b) 0

/-- The byte window `h[off : off+8]`. -/
def hashWindow (h : Hash) (off : Nat) : List Nat :=
  (h.drop off).take 8

/-- The function `accountBloomHash`: the 64-bit mini hash of an account hash, reading
8 bytes at the account hasher offset. -/
def accountBloomHash (offA : Nat) (h : Hash) : Nat :=
  beU64 (hashWindow h offA)

/-- The function `storageBloomHash`: the 64-bit mini hash of an (account, slot) pair.
The source reads both hashes at `bloomStorageHasherOffset`. -/
def storageBloomHash (offS : Nat) (h0 h1 : Hash) : Nat :=
  Nat.xor (beU64 (hashWindow h0 offS)) (beU64 (hashWindow h1 offS))

/-- Modelled from the spec: the spec's formula for the storage bloom key,
`be_u64(a[off_a..+8]) XOR be_u64(s[off_s..+8])`, which reads the account
hash at the *account* hasher offset.  Kept separate so it can be compared
against the source's `storageBloomHash`. -/
def storageBloomHashSpec (offA offS : Nat) (h0 h1 : Hash) : Nat :=
  Nat.xor (beU64 (hashWindow h0 offA)) (beU64 (hashWindow h1 offS))

/-- Modelled from the spec: the disk layer is an external collaborator
(not among the sources); per §6 it serves point lookups of account and
slot blobs by hash. -/
structure diskLayer where
  accountBlob : Hash → Blob
  storageBlob : Hash → Hash → Blob

/-- The fields of a diff layer (the `diffLayer` struct, parent pointer
kept separately in `snapshot`).  The bloom filter `diffed` is the set of
added 64-bit keys. -/
structure diffLayer where
  origin : diskLayer
  root : Hash
  memory : Nat
  stale : Bool
  accountData : List (Hash × Blob)
  storageData : StorMap
  accountList : Option (List Hash)
  storageList : List (Hash × List Hash)
  diffed : List Nat

/-- A snapshot chain: a disk layer or a diff layer over a parent. -/
inductive snapshot where
  | disk (d : diskLayer)
  | diff (dl : diffLayer) (parent : snapshot)

/-- The stale-snapshot read error (`ErrSnapshotStale`). -/
inductive snapErr where
  | stale
deriving DecidableEq

/-- Adding every account key of a delta to a bloom (the first `rebloom`
loop). -/
def bloomAddAccounts (offA : Nat) (accounts : List (Hash × Blob)) (bf : List Nat) : List Nat :=
  accounts.foldl (fun b p => accountBloomHash offA p.1 :: b) bf

/-- Adding every (account, slot) key of a delta to a bloom (the second
`rebloom` loop). -/
def bloomAddStorage (offS : Nat) (storage : StorMap) (bf : List Nat) : List Nat :=
  storage.foldl (fun b p => p.2.foldl (fun b2 q => storageBloomHash offS p.1 q.1 :: b2) b) bf

/-- The `origin` injected by `newDiffLayer`'s parent switch: the parent
itself when it is a disk layer, the parent's origin when it is a diff. -/
def parentOrigin : snapshot → diskLayer
  | .disk d => d
  | .diff dl _ => dl.origin

/-- The bloom seed of `rebloom`: a copy of the parent's bloom when the
parent is a diff, a fresh empty filter otherwise. -/
def parentBloom : snapshot → List Nat
  | .disk _ => []
  | .diff dl _ => dl.diffed

/-- The memory accumulation of `newDiffLayer`: `32 + len(blob)` per
account entry and per storage slot. -/
def memoryOf (accounts : List (Hash × Blob)) (storage : StorMap) : Nat :=
  (accounts.foldl (fun m p => m + (32 + blobLen p.2)) 0) +
    (storage.foldl (fun m p => p.2.foldl (fun m2 q => m2 + (32 + blobLen q.2)) m) 0)

/-- The constructor `newDiffLayer parent root accounts storage`: allocate the layer,
inject origin per the parent switch, rebloom from the parent's bloom plus
the local keys, and accumulate memory. -/
def newDiffLayer (offA offS : Nat) (parent : snapshot) (root : Hash)
    (accounts : List (Hash × Blob)) (storage : StorMap) : diffLayer :=
  { origin := parentOrigin parent
    root := root
    memory := memoryOf accounts storage
    stale := false
    accountData := accounts
    storageData := storage
    accountList := none
    storageList := []
    diffed := bloomAddStorage offS storage (bloomAddAccounts offA accounts (parentBloom parent)) }

/-- The method `Update`: a new layer on top of the existing diff tree. -/
def Update (offA offS : Nat) (s : snapshot) (blockRoot : Hash)
    (accounts : List (Hash × Blob)) (storage : StorMap) : snapshot :=
  .diff (newDiffLayer offA offS s blockRoot accounts storage) s

/-- The internal `accountRLP` walk: staleness is checked at every hop,
a key known locally is returned (an empty blob standing for deletion),
otherwise the parent is consulted, the disk layer being the base case. -/
def accountRLPw : snapshot → Hash → Except snapErr Blob
  | .disk d, h => .ok (d.accountBlob h)
  | .diff dl parent, h =>
    if dl.stale then .error .stale
    else
      match lookupM h dl.accountData with
      | some data => .ok data
      | none => accountRLPw parent h

/-- The internal `storage` walk: like `accountRLPw`, resolving the slot
in the per-account inner map when the account is known locally. -/
def storagew : snapshot → Hash → Hash → Except snapErr Blob
  | .disk d, a, s => .ok (d.storageBlob a s)
  | .diff dl parent, a, s =>
    if dl.stale then .error .stale
    else
      match lookupM a dl.storageData with
      | some inner =>
        match lookupM s inner with
        | some data => .ok data
        | none => storagew parent a s
      | none => storagew parent a s

/-- The method `AccountRLP`: fail when stale; on a bloom miss delegate straight to
the origin disk layer; on a bloom hit start the internal walk. -/
def AccountRLP (offA : Nat) : snapshot → Hash → Except snapErr Blob
  | .disk d, h => .ok (d.accountBlob h)
  | .diff dl parent, h =>
    if dl.stale then .error .stale
    else if accountBloomHash offA h ∈ dl.diffed then accountRLPw (.diff dl parent) h
    else .ok (dl.origin.accountBlob h)

/-- The method `Storage`: fail when stale; on a bloom miss delegate straight to the
origin disk layer; on a bloom hit start the internal walk. -/
def Storage (offS : Nat) : snapshot → Hash → Hash → Except snapErr Blob
  | .disk d, a, s => .ok (d.storageBlob a s)
  | .diff dl parent, a, s =>
    if dl.stale then .error .stale
    else if storageBloomHash offS a s ∈ dl.diffed then storagew (.diff dl parent) a s
    else .ok (dl.origin.storageBlob a s)

/-- The method `Account`: decode the RLP blob returned by `AccountRLP`; a blob of
length zero (nil or empty, deletion or absence) yields `(nil, nil)`.
The RLP decoder is external; it appears as the parameter `decode`. -/
def Account {α : Type} (decode : List Nat → α) (offA : Nat)
    (s : snapshot) (h : Hash) : Except snapErr (Option α) :=
  match AccountRLP offA s h with
  | .error e => .error e
  | .ok data =>
    if blobLen data = 0 then .ok none
    else .ok (some (decode (match data with | none => [] | some bs => bs)))

/-- The ascending comparison used by `slices.SortFunc(_, common.Hash.Cmp)`:
lexicographic byte order. -/
def hashLe : List Nat → List Nat → Bool
  | [], _ => true
  | _ :: _, [] => false
  | a :: as, b :: bs => if a < b then true else if b < a then false else hashLe as bs

/-- Inserting a hash into an already-sorted key list. -/
def insertSorted (x : Hash) : List Hash → List Hash
  | [] => [x]
  | y :: ys => if hashLe x y then x :: y :: ys else y :: insertSorted x ys

/-- Sorting a key list ascending by lexicographic byte order
(`slices.SortFunc(_, common.Hash.Cmp)`; on duplicate-free key sets the
ascending sorted permutation is unique, so any sort models it). -/
def sortHashes : List Hash → List Hash
  | [] => []
  | x :: xs => insertSorted x (sortHashes xs)

/-- The method `AccountList`: return the cached sorted list if present, otherwise
materialise the account keys, sort them, cache the list and charge
`len(list) * 32` bytes to `memory`.  The mutation of the layer is made
explicit in the returned pair. -/
def AccountList (dl : diffLayer) : List Hash × diffLayer :=
  match dl.accountList with
  | some list => (list, dl)
  | none =>
    let list := sortHashes (keysOf dl.accountData)
    (list, { dl with accountList := some list, memory := dl.memory + list.length * 32 })

/-- The method `StorageList`: `nil` for an account this layer does not track;
otherwise return the cached sorted list if present, else materialise the
slot keys of the account, sort, cache, and charge
`len(dl.storageList) * 32 + 32` bytes to `memory` (the length of the
cache map after insertion, as the source does). -/
def StorageList (dl : diffLayer) (accountHash : Hash) : List Hash × diffLayer :=
  match lookupM accountHash dl.storageData with
  | none => ([], dl)
  | some inner =>
    match lookupM accountHash dl.storageList with
    | some list => (list, dl)
    | none =>
      let list := sortHashes (keysOf inner)
      let cache := (accountHash, list) :: dl.storageList
      (list, { dl with storageList := cache, memory := dl.memory + cache.length * 32 + 32 })

/-- The post-state of the parent layer after a successful bottom-level
flatten into it (lines 562-575): the stale flag is set by the swap, the
child's accounts are copied over the parent's, and the storage maps are
merged per account. -/
def flattenParentPost (pdl dl : diffLayer) : diffLayer :=
  { pdl with
    stale := true
    accountData := mapCopy pdl.accountData dl.accountData
    storageData := copyStorage pdl.storageData dl.storageData }

/-- The combo layer returned by `flatten` (lines 577-586): parent's
parent and origin, the child's root and bloom, the merged data maps,
summed memory, fresh lazy caches, and a clear stale flag. -/
def mergeLayers (pdl dl : diffLayer) : diffLayer :=
  { origin := pdl.origin
    root := dl.root
    memory := pdl.memory + dl.memory
    stale := false
    accountData := mapCopy pdl.accountData dl.accountData
    storageData := copyStorage pdl.storageData dl.storageData
    accountList := none
    storageList := []
    diffed := dl.diffed }

/-- The recursive core of `flatten`, on a diff layer `dl` with parent
`p`: if `p` is the disk, return unmodified; otherwise flatten `p` first,
test-and-set its stale flag (aborting with the double-flatten panic if
it was already set) and merge downwards.  The panic is modelled as an
`Except` error carrying the panic message. -/
def flattenDiff (dl : diffLayer) : snapshot → Except String (diffLayer × snapshot)
  | .disk d => .ok (dl, .disk d)
  | .diff pdl pp =>
    match flattenDiff pdl pp with
    | .error e => .error e
    | .ok (pdl', pp') =>
      if pdl'.stale then .error "parent diff layer is stale"
      else .ok (mergeLayers pdl' dl, pp')

/-- The method `flatten` on a snapshot (on a disk layer it is never called; the
identity is used for totality). -/
def flatten : snapshot → Except String snapshot
  | .disk d => .ok (.disk d)
  | .diff dl p =>
    match flattenDiff dl p with
    | .error e => .error e
    | .ok (dl', p') => .ok (.diff dl' p')

/-- The constant `aggregatorMemoryLimit`: maximum size of the bottom-most diff layer. -/
def aggregatorMemoryLimit : Nat := 4 * 1024 * 1024

/-- The constant `aggregatorItemLimit`: approximate item count of a full aggregator
layer (`uint64` division truncates). -/
def aggregatorItemLimit : Nat := aggregatorMemoryLimit / 42

/-- The constant `bloomTargetError`: target false positive rate, as a real number
(the source computes with `float64`; real arithmetic models it here). -/
noncomputable def bloomTargetError : ℝ := 0.02

/-- The constant `bloomSize`: the ideal bloom filter bit count, transcribed from the
source expression `math.Ceil(itemLimit * Log(err) / Log(1/Pow(2, Log 2)))`
over the reals. -/
noncomputable def bloomSize : ℤ :=
  ⌈(aggregatorItemLimit : ℝ) * Real.log bloomTargetError /
    Real.log (1 / (2 : ℝ) ^ Real.log 2)⌉

/-- The constant `bloomFuncs`: the ideal number of hash functions, transcribed from
the source expression `math.Round((bloomSize / itemLimit) * Log 2)` over
the reals. -/
noncomputable def bloomFuncs : ℤ :=
  round (((bloomSize : ℝ) / (aggregatorItemLimit : ℝ)) * Real.log 2)

/-- Modelled from the spec: §4.1's derivation formulas for the bloom
size and function count, kept separate from the source transcription so
the two can be compared. -/
noncomputable def bloomSizeSpec : ℤ :=
  ⌈(aggregatorItemLimit : ℝ) * Real.log bloomTargetError /
    Real.log (1 / (2 : ℝ) ^ Real.log 2)⌉

/-- Modelled from the spec: §4.1's formula `k = round((m/itemLimit)·ln 2)`. -/
noncomputable def bloomFuncsSpec : ℤ :=
  round (((bloomSizeSpec : ℝ) / (aggregatorItemLimit : ℝ)) * Real.log 2)

/-- The chains produced by a sequence of `Update` calls on top of a disk
layer.  The key-distinctness side conditions record that the deltas
arrive as Go maps (no duplicate keys). -/
inductive updatesBuilt (offA offS : Nat) : snapshot → Prop where
  | base (d : diskLayer) : updatesBuilt offA offS (.disk d)
  | step (parent : snapshot) (root : Hash) (accounts : List (Hash × Blob)) (storage : StorMap)
      (hp : updatesBuilt offA offS parent)
      (ha : (keysOf accounts).Nodup)
      (hs : (keysOf storage).Nodup)
      (hi : ∀ p ∈ storage, (keysOf p.2).Nodup) :
      updatesBuilt offA offS (.diff (newDiffLayer offA offS parent root accounts storage) parent)

/-- The disk layer at the bottom of a chain. -/
def chainBase : snapshot → diskLayer
  | .disk d => d
  | .diff _ p => chainBase p

/-- The diff layers of a chain, top first. -/
def layersOf : snapshot → List diffLayer
  | .disk _ => []
  | .diff dl p => dl :: layersOf p

/-- Chain well-formedness over a common origin `o`: every diff layer is
fresh (not stale), has origin `o`, and carries duplicate-free key sets. -/
def chainWF (o : diskLayer) : snapshot → Prop
  | .disk _ => True
  | .diff dl p =>
    dl.stale = false ∧ dl.origin = o ∧ (keysOf dl.accountData).Nodup ∧
      (keysOf dl.storageData).Nodup ∧ (∀ q ∈ dl.storageData, (keysOf q.2).Nodup) ∧
      chainWF o p

/-- Account key `h` is touched by a layer. -/
def accountTouched (dl : diffLayer) (h : Hash) : Prop :=
  h ∈ keysOf dl.accountData

/-- Storage key `(a, st)` is touched by a layer. -/
def storageTouched (dl : diffLayer) (a st : Hash) : Prop :=
  ∃ inner, (a, inner) ∈ dl.storageData ∧ st ∈ keysOf inner

/-! ## Lookup lemmas for the association-list map model -/

theorem lookupM_append {β : Type} (k : Hash) (l1 l2 : List (Hash × β)) :
    lookupM k (l1 ++ l2) = (lookupM k l1).orElse (fun _ => lookupM k l2) := by
  induction l1 with
  | nil => simp [lookupM]
  | cons p rest ih =>
    obtain ⟨k', v⟩ := p
    by_cases hk : k = k' <;> simp [lookupM, hk, ih]

theorem lookupM_mem {β : Type} {k : Hash} {m : List (Hash × β)} {v : β}
    (h : lookupM k m = some v) : (k, v) ∈ m := by
  induction m with
  | nil => simp [lookupM] at h
  | cons p rest ih =>
    obtain ⟨k', v'⟩ := p
    by_cases hk : k = k'
    · simp [lookupM, hk] at h
      simp [hk, h]
    · simp [lookupM, hk] at h
      exact List.mem_cons_of_mem _ (ih h)

theorem mem_keysOf {β : Type} {k : Hash} {v : β} {m : List (Hash × β)}
    (h : (k, v) ∈ m) : k ∈ keysOf m := by
  exact List.mem_map.mpr ⟨(k, v), h, rfl⟩

theorem lookupM_eq_none {β : Type} {k : Hash} {m : List (Hash × β)}
    (h : k ∉ keysOf m) : lookupM k m = none := by
  induction m with
  | nil => rfl
  | cons p rest ih =>
    obtain ⟨k', v'⟩ := p
    simp only [keysOf, List.map_cons, List.mem_cons] at h
    push_neg at h
    simp [lookupM, h.1, ih (by simpa [keysOf] using h.2)]

theorem lookupM_cons_ne {β : Type} {k k' : Hash} {v : β} {m : List (Hash × β)}
    (h : k ≠ k') : lookupM k ((k', v) :: m) = lookupM k m := by
  simp [lookupM, h]

/-- Lookup characterization of the `flatten` storage merge: the child's
binding wins, inner maps are merged child-first where both exist.  Needs
the child's account keys to be duplicate-free (a Go map's always are). -/
theorem lookupM_copyStorage (c : StorMap) (hc : (keysOf c).Nodup) (p : StorMap) (a : Hash) :
    lookupM a (copyStorage p c) =
      match lookupM a c with
      | none => lookupM a p
      | some inner =>
        match lookupM a p with
        | none => some inner
        | some pinner => some (mapCopy pinner inner) := by
  induction c generalizing p with
  | nil => simp [copyStorage, lookupM]
  | cons q rest ih =>
    obtain ⟨a0, i0⟩ := q
    simp only [keysOf, List.map_cons, List.nodup_cons] at hc
    obtain ⟨ha0, hrest⟩ := hc
    by_cases hk : a = a0
    · subst hk
      have hnone : lookupM a rest = none := lookupM_eq_none (by simpa [keysOf] using ha0)
      cases hp : lookupM a p with
      | none =>
        simp only [copyStorage, hp]
        rw [ih hrest]
        simp [hnone, lookupM]
      | some pinner =>
        simp only [copyStorage, hp]
        rw [ih hrest]
        simp [hnone, lookupM]
    · cases hp : lookupM a0 p with
      | none =>
        simp only [copyStorage, hp]
        rw [ih hrest]
        simp [lookupM, hk, lookupM_cons_ne hk]
      | some pinner =>
        simp only [copyStorage, hp]
        rw [ih hrest]
        simp [lookupM, hk, lookupM_cons_ne hk]

/-- Every (account, slot) key of the merged storage map comes from the
parent or from the child. -/
theorem touched_copyStorage {p c : StorMap} {a st : Hash}
    (h : ∃ inner, (a, inner) ∈ copyStorage p c ∧ st ∈ keysOf inner) :
    (∃ inner, (a, inner) ∈ p ∧ st ∈ keysOf inner) ∨
      (∃ inner, (a, inner) ∈ c ∧ st ∈ keysOf inner) := by
  induction c generalizing p with
  | nil => exact Or.inl h
  | cons q rest ih =>
    obtain ⟨a0, i0⟩ := q
    simp only [copyStorage] at h
    cases hp : lookupM a0 p with
    | none =>
      rw [hp] at h
      rcases ih h with hl | hr
      · obtain ⟨inner, hin, hst⟩ := hl
        rcases List.mem_cons.mp hin with heq | hmem
        · injection heq with h1 h2
          exact Or.inr ⟨inner, by simp [h1, h2], hst⟩
        · exact Or.inl ⟨inner, hmem, hst⟩
      · obtain ⟨inner, hin, hst⟩ := hr
        exact Or.inr ⟨inner, List.mem_cons_of_mem _ hin, hst⟩
    | some pinner =>
      rw [hp] at h
      rcases ih h with hl | hr
      · obtain ⟨inner, hin, hst⟩ := hl
        rcases List.mem_cons.mp hin with heq | hmem
        · injection heq with h1 h2
          subst h1
          rw [h2] at hst
          simp only [mapCopy, keysOf, List.map_append, List.mem_append] at hst
          rcases hst with hst | hst
          · exact Or.inr ⟨i0, by simp, hst⟩
          · exact Or.inl ⟨pinner, lookupM_mem hp, hst⟩
        · exact Or.inl ⟨inner, hmem, hst⟩
      · obtain ⟨inner, hin, hst⟩ := hr
        exact Or.inr ⟨inner, List.mem_cons_of_mem _ hin, hst⟩

/-! ## Bloom filter membership lemmas -/

theorem bloomAddAccounts_cons {offA : Nat} {p : Hash × Blob} {rest : List (Hash × Blob)}
    {bf : List Nat} :
    bloomAddAccounts offA (p :: rest) bf =
      bloomAddAccounts offA rest (accountBloomHash offA p.1 :: bf) := rfl

theorem bloomAddStorage_cons {offS : Nat} {p : Hash × SlotMap} {rest : StorMap}
    {bf : List Nat} :
    bloomAddStorage offS (p :: rest) bf =
      bloomAddStorage offS rest
        (p.2.foldl (fun b2 q => storageBloomHash offS p.1 q.1 :: b2) bf) := rfl

theorem mem_bloomAddAccounts_of_mem {offA : Nat} {accounts : List (Hash × Blob)}
    {bf : List Nat} {x : Nat} (hx : x ∈ bf) : x ∈ bloomAddAccounts offA accounts bf := by
  induction accounts generalizing bf with
  | nil => exact hx
  | cons p rest ih => exact ih (List.mem_cons_of_mem _ hx)

theorem mem_bloomAddAccounts_self {offA : Nat} {accounts : List (Hash × Blob)}
    {bf : List Nat} {p : Hash × Blob} (hp : p ∈ accounts) :
    accountBloomHash offA p.1 ∈ bloomAddAccounts offA accounts bf := by
  induction accounts generalizing bf with
  | nil => cases hp
  | cons q rest ih =>
    rcases List.mem_cons.mp hp with rfl | hmem
    · rw [bloomAddAccounts_cons]
      exact mem_bloomAddAccounts_of_mem (List.mem_cons_self _ _)
    · rw [bloomAddAccounts_cons]
      exact ih hmem

theorem mem_innerFold_of_mem {offS : Nat} {a : Hash} {inner : SlotMap}
    {bf : List Nat} {x : Nat} (hx : x ∈ bf) :
    x ∈ inner.foldl (fun b2 q => storageBloomHash offS a q.1 :: b2) bf := by
  induction inner generalizing bf with
  | nil => exact hx
  | cons p rest ih => exact ih (List.mem_cons_of_mem _ hx)

theorem mem_innerFold_self {offS : Nat} {a : Hash} {inner : SlotMap}
    {bf : List Nat} {q : Hash × Blob} (hq : q ∈ inner) :
    storageBloomHash offS a q.1 ∈
      inner.foldl (fun b2 q => storageBloomHash offS a q.1 :: b2) bf := by
  induction inner generalizing bf with
  | nil => cases hq
  | cons p rest ih =>
    rcases List.mem_cons.mp hq with rfl | hmem
    · rw [List.foldl_cons]
      exact mem_innerFold_of_mem (List.mem_cons_self _ _)
    · rw [List.foldl_cons]
      exact ih hmem

theorem mem_bloomAddStorage_of_mem {offS : Nat} {storage : StorMap}
    {bf : List Nat} {x : Nat} (hx : x ∈ bf) : x ∈ bloomAddStorage offS storage bf := by
  induction storage generalizing bf with
  | nil => exact hx
  | cons p rest ih => exact ih (mem_innerFold_of_mem hx)

theorem mem_bloomAddStorage_self {offS : Nat} {storage : StorMap}
    {bf : List Nat} {a : Hash} {inner : SlotMap} {q : Hash × Blob}
    (ha : (a, inner) ∈ storage) (hq : q ∈ inner) :
    storageBloomHash offS a q.1 ∈ bloomAddStorage offS storage bf := by
  induction storage generalizing bf with
  | nil => cases ha
  | cons p rest ih =>
    rcases List.mem_cons.mp ha with rfl | hmem
    · rw [bloomAddStorage_cons]
      exact mem_bloomAddStorage_of_mem (mem_innerFold_self hq)
    · rw [bloomAddStorage_cons]
      exact ih hmem

/-! ## The lexicographic byte order used by the sorted key views -/

theorem hashLe_total (a b : List Nat) : hashLe a b || hashLe b a := by
  induction a generalizing b with
  | nil => simp [hashLe]
  | cons x as ih =>
    cases b with
    | nil => simp [hashLe]
    | cons y bs =>
      by_cases hxy : x < y
      · simp [hashLe, hxy]
      · by_cases hyx : y < x
        · simp [hashLe, hyx, Nat.lt_asymm hyx]
        · have : ¬ y < x := hyx
          simpa [hashLe, hxy, hyx] using ih bs

theorem hashLe_trans (a b c : List Nat) (hab : hashLe a b) (hbc : hashLe b c) :
    hashLe a c := by
  induction a generalizing b c with
  | nil => simp [hashLe]
  | cons x as ih =>
    cases b with
    | nil => simp [hashLe] at hab
    | cons y bs =>
      cases c with
      | nil => simp [hashLe] at hbc
      | cons z cs =>
        by_cases hxy : x < y
        · by_cases hyz : y < z
          · simp [hashLe, Nat.lt_trans hxy hyz]
          · by_cases hzy : z < y
            · simp [hashLe, hyz, hzy] at hbc
            · have hyz' : y = z := Nat.le_antisymm (Nat.le_of_not_lt hzy) (Nat.le_of_not_lt hyz)
              subst hyz'
              simp [hashLe, hxy]
        · by_cases hyx : y < x
          · simp [hashLe, hxy, hyx] at hab
          · have hxy' : x = y := Nat.le_antisymm (Nat.le_of_not_lt hyx) (Nat.le_of_not_lt hxy)
            subst hxy'
            by_cases hyz : x < z
            · simp [hashLe, hyz]
            · by_cases hzy : z < x
              · simp [hashLe, hyz, hzy] at hbc
              · simp only [hashLe, hxy, hyx, if_neg, ite_self] at hab hbc ⊢
                simp only [if_neg hyz, if_neg hzy]
                simp [hashLe, hxy] at hab
                simp [hashLe, hyz, hzy] at hbc
                exact ih bs cs hab hbc

theorem insertSorted_perm (x : Hash) (l : List Hash) :
    (insertSorted x l).Perm (x :: l) := by
  induction l with
  | nil => exact List.Perm.refl _
  | cons y ys ih =>
    by_cases hxy : hashLe x y
    · simp [insertSorted, hxy]
    · simp only [insertSorted, hxy, Bool.false_eq_true, if_false]
      exact (List.Perm.cons y ih).trans (List.Perm.swap x y ys)

theorem sortHashes_perm (l : List Hash) : (sortHashes l).Perm l := by
  induction l with
  | nil => exact List.Perm.refl _
  | cons x xs ih =>
    exact (insertSorted_perm x (sortHashes xs)).trans (List.Perm.cons x ih)

theorem insertSorted_sorted (x : Hash) (l : List Hash)
    (hl : l.Pairwise (fun a b => hashLe a b = true)) :
    (insertSorted x l).Pairwise (fun a b => hashLe a b = true) := by
  induction l with
  | nil => simp [insertSorted]
  | cons y ys ih =>
    rcases List.pairwise_cons.mp hl with ⟨hy, hys⟩
    by_cases hxy : hashLe x y
    · simp only [insertSorted, hxy, if_true]
      refine List.pairwise_cons.mpr ⟨?_, hl⟩
      intro z hz
      rcases List.mem_cons.mp hz with heq | hzys
      · rw [heq]; exact hxy
      · exact hashLe_trans x y z hxy (hy z hzys)
    · simp only [insertSorted, hxy, Bool.false_eq_true, if_false]
      refine List.pairwise_cons.mpr ⟨?_, ih hys⟩
      intro z hz
      have hz' : z ∈ x :: ys := (insertSorted_perm x ys).mem_iff.mp hz
      rcases List.mem_cons.mp hz' with heq | hzys
      · rw [heq]
        have := hashLe_total x y
        rcases Bool.or_eq_true_iff.mp this with h1 | h2
        · exact absurd h1 hxy
        · exact h2
      · exact hy z hzys

theorem sortHashes_sorted (l : List Hash) :
    (sortHashes l).Pairwise (fun a b => hashLe a b = true) := by
  induction l with
  | nil => simp [sortHashes]
  | cons x xs ih => exact insertSorted_sorted x (sortHashes xs) ih

/-! ## Invariants of chains built by `Update` -/

theorem built_wf {offA offS : Nat} {s : snapshot} (hb : updatesBuilt offA offS s) :
    chainWF (chainBase s) s := by
  induction hb with
  | base d => trivial
  | step parent root accounts storage hp ha hs hi ih =>
    refine ⟨rfl, ?_, ha, hs, hi, ?_⟩
    · cases parent with
      | disk d => rfl
      | diff pdl pp =>
        simp only [newDiffLayer, parentOrigin, chainBase]
        exact ih.2.1
    · simpa [chainBase] using ih

theorem chainWF_parent {o : diskLayer} {dl : diffLayer} {p : snapshot}
    (h : chainWF o (.diff dl p)) : chainWF o p := h.2.2.2.2.2

/-- On a well-formed chain, `flatten` succeeds and returns a fresh layer
with the chain's origin, the top layer's bloom and the top layer's root. -/
theorem flattenDiff_ok {o : diskLayer} (p : snapshot) (dl : diffLayer)
    (hwf : chainWF o (.diff dl p)) :
    ∃ dl' p', flattenDiff dl p = .ok (dl', p') ∧ dl'.stale = false ∧
      dl'.origin = o ∧ dl'.diffed = dl.diffed ∧ dl'.root = dl.root := by
  induction p generalizing dl with
  | disk d => exact ⟨dl, .disk d, rfl, hwf.1, hwf.2.1, rfl, rfl⟩
  | diff pdl pp ih =>
    obtain ⟨pdl', pp', hok, hstale, horigin, _, _⟩ := ih pdl (chainWF_parent hwf)
    refine ⟨mergeLayers pdl' dl, pp', ?_, rfl, horigin, rfl, rfl⟩
    simp [flattenDiff, hok, hstale, mergeLayers]

/-- The account walk on a merged combo layer: the child's binding wins,
otherwise the walk continues as it would have from the parent layer. -/
theorem accountRLPw_merge (q dl : diffLayer) (r : snapshot) (hq : q.stale = false)
    (h : Hash) :
    accountRLPw (.diff (mergeLayers q dl) r) h =
      match lookupM h dl.accountData with
      | some v => .ok v
      | none => accountRLPw (.diff q r) h := by
  simp only [accountRLPw, mergeLayers, mapCopy, hq]
  rw [lookupM_append]
  cases hc : lookupM h dl.accountData with
  | some v => simp
  | none => simp

/-- The internal account walk is unchanged by flattening a well-formed
chain: the merged layer answers every key exactly as the chain did. -/
theorem accountRLPw_flatten {o : diskLayer} {p : snapshot} {dl dl' : diffLayer}
    {p' : snapshot} (hwf : chainWF o (.diff dl p))
    (hok : flattenDiff dl p = .ok (dl', p')) (h : Hash) :
    accountRLPw (.diff dl' p') h = accountRLPw (.diff dl p) h := by
  induction p generalizing dl dl' p' with
  | disk d =>
    simp only [flattenDiff] at hok
    injection hok with hok
    injection hok with h1 h2
    rw [← h1, ← h2]
  | diff pdl pp ih =>
    obtain ⟨q, r, hq, hqstale, _, _, _⟩ := flattenDiff_ok pp pdl (chainWF_parent hwf)
    simp only [flattenDiff, hq, hqstale, Bool.false_eq_true, if_false] at hok
    injection hok with hok
    injection hok with h1 h2
    subst h1; subst h2
    have hih := ih (chainWF_parent hwf) hq
    have hdl : dl.stale = false := hwf.1
    rw [accountRLPw_merge q dl r hqstale h, hih]
    simp only [accountRLPw, hdl, Bool.false_eq_true, if_false]

/-- The storage walk on a merged combo layer: a slot bound by the child
wins; otherwise the walk continues as it would have from the parent. -/
theorem storagew_merge (q dl : diffLayer) (r : snapshot) (hq : q.stale = false)
    (hnd : (keysOf dl.storageData).Nodup) (a st : Hash) :
    storagew (.diff (mergeLayers q dl) r) a st =
      match lookupM a dl.storageData with
      | some cinner =>
        match lookupM st cinner with
        | some data => .ok data
        | none => storagew (.diff q r) a st
      | none => storagew (.diff q r) a st := by
  have hchar := lookupM_copyStorage dl.storageData hnd q.storageData a
  simp only [storagew, mergeLayers, hq, Bool.false_eq_true, if_false]
  rw [hchar]
  cases hc : lookupM a dl.storageData with
  | none =>
    cases hp : lookupM a q.storageData with
    | none => rfl
    | some qinner => rfl
  | some cinner =>
    cases hp : lookupM a q.storageData with
    | none =>
      cases hs : lookupM st cinner with
      | some d => rfl
      | none => simp [hp]
    | some qinner =>
      simp only [mapCopy]
      rw [lookupM_append]
      cases hs : lookupM st cinner with
      | some d => rfl
      | none => simp [hp]

/-- The storage walk is unchanged by flattening a well-formed chain. -/
theorem storagew_flatten {o : diskLayer} {p : snapshot} {dl dl' : diffLayer}
    {p' : snapshot} (hwf : chainWF o (.diff dl p))
    (hok : flattenDiff dl p = .ok (dl', p')) (a st : Hash) :
    storagew (.diff dl' p') a st = storagew (.diff dl p) a st := by
  induction p generalizing dl dl' p' with
  | disk d =>
    simp only [flattenDiff] at hok
    injection hok with hok
    injection hok with h1 h2
    rw [← h1, ← h2]
  | diff pdl pp ih =>
    obtain ⟨q, r, hq, hqstale, _, _, _⟩ := flattenDiff_ok pp pdl (chainWF_parent hwf)
    simp only [flattenDiff, hq, hqstale, Bool.false_eq_true, if_false] at hok
    injection hok with hok
    injection hok with h1 h2
    subst h1; subst h2
    have hih := ih (chainWF_parent hwf) hq
    have hdl : dl.stale = false := hwf.1
    have hnd : (keysOf dl.storageData).Nodup := hwf.2.2.2.1
    rw [storagew_merge q dl r hqstale hnd a st, hih]
    simp only [storagew, hdl, Bool.false_eq_true, if_false]

/-! ## The bloom superset invariant over built chains -/

theorem built_bloom_acc {offA offS : Nat} {s : snapshot} (hb : updatesBuilt offA offS s) :
    ∀ L ∈ layersOf s, ∀ h, accountTouched L h → accountBloomHash offA h ∈ parentBloom s := by
  induction hb with
  | base d => intro L hL; cases hL
  | step parent root accounts storage hp ha hs hi ih =>
    intro L hL h ht
    rcases List.mem_cons.mp hL with rfl | hmem
    · obtain ⟨pr, hpr, hfst⟩ := List.mem_map.mp ht
      subst hfst
      exact mem_bloomAddStorage_of_mem (mem_bloomAddAccounts_self hpr)
    · have := ih L hmem h ht
      exact mem_bloomAddStorage_of_mem (mem_bloomAddAccounts_of_mem this)

theorem built_bloom_stor {offA offS : Nat} {s : snapshot} (hb : updatesBuilt offA offS s) :
    ∀ L ∈ layersOf s, ∀ a st, storageTouched L a st →
      storageBloomHash offS a st ∈ parentBloom s := by
  induction hb with
  | base d => intro L hL; cases hL
  | step parent root accounts storage hp ha hs hi ih =>
    intro L hL a st ht
    rcases List.mem_cons.mp hL with rfl | hmem
    · obtain ⟨inner, hin, hst⟩ := ht
      obtain ⟨q, hq, hfst⟩ := List.mem_map.mp hst
      subst hfst
      exact mem_bloomAddStorage_self hin hq
    · have := ih L hmem a st ht
      exact mem_bloomAddStorage_of_mem (mem_bloomAddAccounts_of_mem this)

/-! ## Key provenance of the flattened layer -/

theorem accountTouched_flattenDiff {p : snapshot} {dl dl' : diffLayer} {p' : snapshot}
    (hok : flattenDiff dl p = .ok (dl', p')) {h : Hash} (ht : accountTouched dl' h) :
    ∃ L ∈ layersOf (.diff dl p), accountTouched L h := by
  induction p generalizing dl dl' p' with
  | disk d =>
    simp only [flattenDiff] at hok
    injection hok with hok
    injection hok with h1 h2
    subst h1
    exact ⟨dl, List.mem_cons_self _ _, ht⟩
  | diff pdl pp ih =>
    cases hrec : flattenDiff pdl pp with
    | error e => simp [flattenDiff, hrec] at hok
    | ok pr =>
      obtain ⟨q, r⟩ := pr
      by_cases hst : q.stale
      · simp [flattenDiff, hrec, hst] at hok
      · simp only [flattenDiff, hrec, hst, Bool.false_eq_true, if_false] at hok
        injection hok with hok
        injection hok with h1 h2
        subst h1
        have hmem : h ∈ keysOf (mapCopy q.accountData dl.accountData) := ht
        simp only [mapCopy, keysOf, List.map_append, List.mem_append] at hmem
        rcases hmem with hc | hq
        · exact ⟨dl, List.mem_cons_self _ _, hc⟩
        · obtain ⟨L, hL, hLt⟩ := ih hrec hq
          exact ⟨L, List.mem_cons_of_mem _ hL, hLt⟩

theorem storageTouched_flattenDiff {p : snapshot} {dl dl' : diffLayer} {p' : snapshot}
    (hok : flattenDiff dl p = .ok (dl', p')) {a st : Hash}
    (ht : storageTouched dl' a st) :
    ∃ L ∈ layersOf (.diff dl p), storageTouched L a st := by
  induction p generalizing dl dl' p' with
  | disk d =>
    simp only [flattenDiff] at hok
    injection hok with hok
    injection hok with h1 h2
    subst h1
    exact ⟨dl, List.mem_cons_self _ _, ht⟩
  | diff pdl pp ih =>
    cases hrec : flattenDiff pdl pp with
    | error e => simp [flattenDiff, hrec] at hok
    | ok pr =>
      obtain ⟨q, r⟩ := pr
      by_cases hst : q.stale
      · simp [flattenDiff, hrec, hst] at hok
      · simp only [flattenDiff, hrec, hst, Bool.false_eq_true, if_false] at hok
        injection hok with hok
        injection hok with h1 h2
        subst h1
        have hmem : ∃ inner, (a, inner) ∈ copyStorage q.storageData dl.storageData ∧
            st ∈ keysOf inner := ht
        rcases touched_copyStorage hmem with hq | hc
        · obtain ⟨L, hL, hLt⟩ := ih hrec hq
          exact ⟨L, List.mem_cons_of_mem _ hL, hLt⟩
        · exact ⟨dl, List.mem_cons_self _ _, hc⟩

/-- The function `flatten` always hands the child's bloom to the merged layer. -/
theorem flattenDiff_diffed {p : snapshot} {dl dl' : diffLayer} {p' : snapshot}
    (hok : flattenDiff dl p = .ok (dl', p')) : dl'.diffed = dl.diffed := by
  cases p with
  | disk d =>
    simp only [flattenDiff] at hok
    injection hok with hok
    injection hok with h1 h2
    rw [← h1]
  | diff pdl pp =>
    cases hrec : flattenDiff pdl pp with
    | error e => simp [flattenDiff, hrec] at hok
    | ok pr =>
      obtain ⟨q, r⟩ := pr
      by_cases hst : q.stale
      · simp [flattenDiff, hrec, hst] at hok
      · simp only [flattenDiff, hrec, hst, Bool.false_eq_true, if_false] at hok
        injection hok with hok
        injection hok with h1 h2
        rw [← h1]
        rfl

/-! ## Concrete objects used by witnesses and counterexamples -/

/-- A disk layer with no data at all. -/
def dummyDisk : diskLayer := ⟨fun _ => none, fun _ _ => none⟩

/-- A concrete account hash. -/
def kA : Hash := List.replicate 32 1

/-- A second concrete account hash. -/
def kB : Hash := List.replicate 32 2

/-- A concrete slot hash. -/
def kS : Hash := List.replicate 32 4

/-! ## C4 -/

/-- C4: for a non-stale diff layer and a queried key whose mixed bloom
hash is not in the layer's bloom, the account and storage reads delegate
directly to the origin disk layer's lookup; the result is that lookup,
and it is independent of the parent chain and of the layer's own data
maps. -/
theorem C4_bloom_miss_delegates (offA offS : Nat) (dl : diffLayer) (p q : snapshot)
    (h a st : Hash) (hstale : dl.stale = false)
    (hmissA : accountBloomHash offA h ∉ dl.diffed)
    (hmissS : storageBloomHash offS a st ∉ dl.diffed) :
    AccountRLP offA (.diff dl p) h = .ok (dl.origin.accountBlob h) ∧
    Storage offS (.diff dl p) a st = .ok (dl.origin.storageBlob a st) ∧
    AccountRLP offA (.diff dl p) h = AccountRLP offA (.diff dl q) h ∧
    Storage offS (.diff dl p) a st = Storage offS (.diff dl q) a st ∧
    (∀ m, AccountRLP offA (.diff { dl with accountData := m } p) h =
      .ok (dl.origin.accountBlob h)) ∧
    (∀ sm, Storage offS (.diff { dl with storageData := sm } p) a st =
      .ok (dl.origin.storageBlob a st)) := by
  refine ⟨?_, ?_, ?_, ?_, ?_, ?_⟩ <;>
    simp [AccountRLP, Storage, hstale, hmissA, hmissS]

/-- Witness for C4 at a concrete one-account layer and a foreign key. -/
theorem C4_witness :
    AccountRLP 0 (.diff ⟨dummyDisk, [], 0, false, [(kA, some [1])], [],
      none, [], [accountBloomHash 0 kA]⟩ (.disk dummyDisk)) kB =
      .ok (dummyDisk.accountBlob kB) ∧
    Storage 0 (.diff ⟨dummyDisk, [], 0, false, [(kA, some [1])], [],
      none, [], [accountBloomHash 0 kA]⟩ (.disk dummyDisk)) kB kS =
      .ok (dummyDisk.storageBlob kB kS) ∧
    AccountRLP 0 (.diff ⟨dummyDisk, [], 0, false, [(kA, some [1])], [],
      none, [], [accountBloomHash 0 kA]⟩ (.disk dummyDisk)) kB =
      AccountRLP 0 (.diff ⟨dummyDisk, [], 0, false, [(kA, some [1])], [],
        none, [], [accountBloomHash 0 kA]⟩ (.disk dummyDisk)) kB ∧
    Storage 0 (.diff ⟨dummyDisk, [], 0, false, [(kA, some [1])], [],
      none, [], [accountBloomHash 0 kA]⟩ (.disk dummyDisk)) kB kS =
      Storage 0 (.diff ⟨dummyDisk, [], 0, false, [(kA, some [1])], [],
        none, [], [accountBloomHash 0 kA]⟩ (.disk dummyDisk)) kB kS ∧
    (∀ m, AccountRLP 0 (.diff { (⟨dummyDisk, [], 0, false, [(kA, some [1])], [],
      none, [], [accountBloomHash 0 kA]⟩ : diffLayer) with accountData := m }
        (.disk dummyDisk)) kB = .ok (dummyDisk.accountBlob kB)) ∧
    (∀ sm, Storage 0 (.diff { (⟨dummyDisk, [], 0, false, [(kA, some [1])], [],
      none, [], [accountBloomHash 0 kA]⟩ : diffLayer) with storageData := sm }
        (.disk dummyDisk)) kB kS = .ok (dummyDisk.storageBlob kB kS)) :=
  C4_bloom_miss_delegates 0 0 _ (.disk dummyDisk) (.disk dummyDisk) kB kB kS
    rfl (by decide) (by decide)

/-! ## C5 -/

/-- C5: flatten test-and-sets the parent's stale flag.  A flatten into a
fresh parent succeeds and leaves the parent stale, so that a second
flatten targeting the same (now stale) parent aborts with the
double-flatten panic; a flatten into an already-stale parent aborts the
same way instead of merging. -/
theorem C5_double_flatten (dl dl2 pdl : diffLayer) (b : diskLayer)
    (hfresh : pdl.stale = false) :
    flatten (.diff dl (.diff pdl (.disk b))) =
      .ok (.diff (mergeLayers pdl dl) (.disk b)) ∧
    (flattenParentPost pdl dl).stale = true ∧
    flatten (.diff dl2 (.diff (flattenParentPost pdl dl) (.disk b))) =
      .error "parent diff layer is stale" ∧
    (∀ qdl : diffLayer, qdl.stale = true →
      flatten (.diff dl (.diff qdl (.disk b))) = .error "parent diff layer is stale") := by
  refine ⟨?_, rfl, ?_, ?_⟩
  · simp [flatten, flattenDiff, hfresh]
  · simp [flatten, flattenDiff, flattenParentPost]
  · intro qdl hq
    simp [flatten, flattenDiff, hq]

/-- Witness for C5 at concrete fresh layers. -/
theorem C5_witness :
    flatten (.diff ⟨dummyDisk, kA, 0, false, [(kA, some [2])], [], none, [], []⟩
        (.diff ⟨dummyDisk, kB, 0, false, [(kA, some [1])], [], none, [], []⟩ (.disk dummyDisk))) =
      .ok (.diff (mergeLayers ⟨dummyDisk, kB, 0, false, [(kA, some [1])], [], none, [], []⟩
        ⟨dummyDisk, kA, 0, false, [(kA, some [2])], [], none, [], []⟩) (.disk dummyDisk)) ∧
    (flattenParentPost ⟨dummyDisk, kB, 0, false, [(kA, some [1])], [], none, [], []⟩
      ⟨dummyDisk, kA, 0, false, [(kA, some [2])], [], none, [], []⟩).stale = true ∧
    flatten (.diff ⟨dummyDisk, kS, 0, false, [], [], none, [], []⟩
        (.diff (flattenParentPost ⟨dummyDisk, kB, 0, false, [(kA, some [1])], [], none, [], []⟩
          ⟨dummyDisk, kA, 0, false, [(kA, some [2])], [], none, [], []⟩) (.disk dummyDisk))) =
      .error "parent diff layer is stale" ∧
    (∀ qdl : diffLayer, qdl.stale = true →
      flatten (.diff ⟨dummyDisk, kA, 0, false, [(kA, some [2])], [], none, [], []⟩
        (.diff qdl (.disk dummyDisk))) = .error "parent diff layer is stale") :=
  C5_double_flatten _ _ _ dummyDisk rfl

/-! ## C10 -/

/-- C10: flattening into a diff parent only marks that parent stale: the
merged successor starts with a clear stale flag and empty lazy sort
caches, and a reader still holding the child layer is not failed by the
child's own stale check — a key served by the child's own map is still
returned after the parent has been flattened into. -/
theorem C10_flatten_frame (offA : Nat) (dl pdl : diffLayer) (b : diskLayer)
    (hchild : dl.stale = false) (hp : pdl.stale = false) :
    flatten (.diff dl (.diff pdl (.disk b))) =
      .ok (.diff (mergeLayers pdl dl) (.disk b)) ∧
    (mergeLayers pdl dl).stale = false ∧
    (mergeLayers pdl dl).accountList = none ∧
    (mergeLayers pdl dl).storageList = [] ∧
    (flattenParentPost pdl dl).stale = true ∧
    (∀ h v, lookupM h dl.accountData = some v →
      accountBloomHash offA h ∈ dl.diffed →
      AccountRLP offA (.diff dl (.diff (flattenParentPost pdl dl) (.disk b))) h = .ok v) := by
  refine ⟨?_, rfl, rfl, rfl, rfl, ?_⟩
  · simp [flatten, flattenDiff, hp]
  · intro h v hv hbloom
    simp [AccountRLP, accountRLPw, hchild, hbloom, hv]

/-- Witness for C10 at concrete fresh layers. -/
theorem C10_witness :
    flatten (.diff ⟨dummyDisk, kA, 0, false, [(kA, some [2])], [], none, [],
        [accountBloomHash 0 kA]⟩
      (.diff ⟨dummyDisk, kB, 0, false, [(kA, some [1])], [], none, [], []⟩ (.disk dummyDisk))) =
      .ok (.diff (mergeLayers ⟨dummyDisk, kB, 0, false, [(kA, some [1])], [], none, [], []⟩
        ⟨dummyDisk, kA, 0, false, [(kA, some [2])], [], none, [],
          [accountBloomHash 0 kA]⟩) (.disk dummyDisk)) ∧
    (mergeLayers ⟨dummyDisk, kB, 0, false, [(kA, some [1])], [], none, [], []⟩
      ⟨dummyDisk, kA, 0, false, [(kA, some [2])], [], none, [],
        [accountBloomHash 0 kA]⟩).stale = false ∧
    (mergeLayers ⟨dummyDisk, kB, 0, false, [(kA, some [1])], [], none, [], []⟩
      ⟨dummyDisk, kA, 0, false, [(kA, some [2])], [], none, [],
        [accountBloomHash 0 kA]⟩).accountList = none ∧
    (mergeLayers ⟨dummyDisk, kB, 0, false, [(kA, some [1])], [], none, [], []⟩
      ⟨dummyDisk, kA, 0, false, [(kA, some [2])], [], none, [],
        [accountBloomHash 0 kA]⟩).storageList = [] ∧
    (flattenParentPost ⟨dummyDisk, kB, 0, false, [(kA, some [1])], [], none, [], []⟩
      ⟨dummyDisk, kA, 0, false, [(kA, some [2])], [], none, [],
        [accountBloomHash 0 kA]⟩).stale = true ∧
    (∀ h v, lookupM h ([(kA, some [2])] : List (Hash × Blob)) = some v →
      accountBloomHash 0 h ∈ [accountBloomHash 0 kA] →
      AccountRLP 0 (.diff ⟨dummyDisk, kA, 0, false, [(kA, some [2])], [], none, [],
          [accountBloomHash 0 kA]⟩
        (.diff (flattenParentPost ⟨dummyDisk, kB, 0, false, [(kA, some [1])], [], none, [], []⟩
          ⟨dummyDisk, kA, 0, false, [(kA, some [2])], [], none, [],
            [accountBloomHash 0 kA]⟩) (.disk dummyDisk))) h = .ok v) :=
  C10_flatten_frame 0 _ _ dummyDisk rfl rfl

/-! ## C2 -/

/-- A concrete stale layer holding one account, used to exhibit that the
sorted-key accessors ignore the stale flag. -/
def staleExLayer : diffLayer :=
  ⟨dummyDisk, kA, 0, true, [(kA, some [1])], [(kA, [(kS, some [2])])], none, [],
    [accountBloomHash 0 kA, storageBloomHash 0 kA kS]⟩

/-- Counterexample to C2 as stated: `AccountList` and `StorageList` are
accessors of a stale layer, yet they do not fail with `StaleSnapshot` —
they return the key lists. -/
theorem C2_counterexample :
    staleExLayer.stale = true ∧
    (AccountList staleExLayer).1 = [kA] ∧
    (StorageList staleExLayer kA).1 = [kS] := by
  refine ⟨rfl, ?_, ?_⟩ <;> decide

/-- C2 (amended): every *value* accessor of a stale diff layer —
`AccountRLP`, the internal `accountRLP` walk, `Storage`, the internal
`storage` walk, and `Account` — fails with `StaleSnapshot` and returns
no value, and any such read on a layer that has been flattened into
(its stale flag having been set by `flatten`) fails the same way; the
sorted-key accessors `AccountList`/`StorageList` do not check the flag. -/
theorem C2_stale_reads_fail {α : Type} (decode : List Nat → α) (offA offS : Nat)
    (dl : diffLayer) (p : snapshot) (h a st : Hash) (hstale : dl.stale = true) :
    AccountRLP offA (.diff dl p) h = .error .stale ∧
    accountRLPw (.diff dl p) h = .error .stale ∧
    Storage offS (.diff dl p) a st = .error .stale ∧
    storagew (.diff dl p) a st = .error .stale ∧
    Account decode offA (.diff dl p) h = .error .stale ∧
    (∀ (pdl c : diffLayer) (q : snapshot),
      AccountRLP offA (.diff (flattenParentPost pdl c) q) h = .error .stale ∧
      Storage offS (.diff (flattenParentPost pdl c) q) a st = .error .stale) := by
  refine ⟨?_, ?_, ?_, ?_, ?_, ?_⟩
  · simp [AccountRLP, hstale]
  · simp [accountRLPw, hstale]
  · simp [Storage, hstale]
  · simp [storagew, hstale]
  · simp [Account, AccountRLP, hstale]
  · intro pdl c q
    constructor
    · simp [AccountRLP, flattenParentPost]
    · simp [Storage, flattenParentPost]

/-- Witness for the amended C2 at the concrete stale layer. -/
theorem C2_witness :
    AccountRLP 0 (.diff staleExLayer (.disk dummyDisk)) kA = .error .stale ∧
    accountRLPw (.diff staleExLayer (.disk dummyDisk)) kA = .error .stale ∧
    Storage 0 (.diff staleExLayer (.disk dummyDisk)) kA kS = .error .stale ∧
    storagew (.diff staleExLayer (.disk dummyDisk)) kA kS = .error .stale ∧
    Account (fun bs => bs) 0 (.diff staleExLayer (.disk dummyDisk)) kA = .error .stale ∧
    (∀ (pdl c : diffLayer) (q : snapshot),
      AccountRLP 0 (.diff (flattenParentPost pdl c) q) kA = .error .stale ∧
      Storage 0 (.diff (flattenParentPost pdl c) q) kA kS = .error .stale) :=
  C2_stale_reads_fail (fun bs => bs) 0 0 staleExLayer (.disk dummyDisk) kA kA kS rfl

/-! ## C9 -/

/-- C9: at the decoded interface, `Account` answers `(nil, nil)` whenever
the blob from `AccountRLP` has length zero — whether it is a nil slice
(deletion tombstone or absence) or a non-nil empty slice — so the two
zero-length states are indistinguishable to `Account`'s callers, while
`AccountRLP` itself hands back the stored blob verbatim and so preserves
the distinction. -/
theorem C9_account_zero_length {α : Type} (decode : List Nat → α) (offA : Nat)
    (s : snapshot) (h : Hash) (b : Blob)
    (hrlp : AccountRLP offA s h = .ok b) (hlen : blobLen b = 0) :
    Account decode offA s h = .ok none ∧
    (∀ (dl : diffLayer) (p : snapshot) (h2 : Hash) (b2 : Blob),
      dl.stale = false → accountBloomHash offA h2 ∈ dl.diffed →
      lookupM h2 dl.accountData = some b2 →
      AccountRLP offA (.diff dl p) h2 = .ok b2) := by
  constructor
  · simp [Account, hrlp, hlen]
  · intro dl p h2 b2 hstale hbloom hv
    simp [AccountRLP, accountRLPw, hstale, hbloom, hv]

/-- Witness for C9: a layer storing a nil-slice tombstone for `kA` and a
non-nil empty slice for `kB`; `Account` collapses both to `(nil, nil)`. -/
theorem C9_witness :
    Account (fun bs => bs) 0
      (.diff ⟨dummyDisk, kA, 0, false, [(kA, none), (kB, some [])], [], none, [],
        [accountBloomHash 0 kA, accountBloomHash 0 kB]⟩ (.disk dummyDisk)) kA = .ok none ∧
    (∀ (dl : diffLayer) (p : snapshot) (h2 : Hash) (b2 : Blob),
      dl.stale = false → accountBloomHash 0 h2 ∈ dl.diffed →
      lookupM h2 dl.accountData = some b2 →
      AccountRLP 0 (.diff dl p) h2 = .ok b2) :=
  C9_account_zero_length (fun bs => bs) 0
    (.diff ⟨dummyDisk, kA, 0, false, [(kA, none), (kB, some [])], [], none, [],
      [accountBloomHash 0 kA, accountBloomHash 0 kB]⟩ (.disk dummyDisk)) kA none
    (by simp [AccountRLP, accountRLPw, lookupM]) rfl

/-! ## C6 -/

theorem beU64_bound (l : List Nat) (acc : Nat) (hb : ∀ x ∈ l, x < 256) :
    List.foldl (fun a b => a * 256 + b) acc l < (acc + 1) * 256 ^ l.length := by
  induction l generalizing acc with
  | nil => simp
  | cons b rest ih =>
    have hb' : b < 256 := hb b (List.mem_cons_self _ _)
    have h1 := ih (acc * 256 + b) (fun x hx => hb x (List.mem_cons_of_mem _ hx))
    have h2 : (acc * 256 + b + 1) ≤ (acc + 1) * 256 := by
      have : b + 1 ≤ 256 := hb'
      calc acc * 256 + b + 1 ≤ acc * 256 + 256 := by omega
        _ = (acc + 1) * 256 := by ring
    calc List.foldl (fun a b => a * 256 + b) acc (b :: rest)
        = List.foldl (fun a b => a * 256 + b) (acc * 256 + b) rest := rfl
      _ < (acc * 256 + b + 1) * 256 ^ rest.length := h1
      _ ≤ ((acc + 1) * 256) * 256 ^ rest.length := Nat.mul_le_mul_right _ h2
      _ = (acc + 1) * 256 ^ (b :: rest).length := by
          simp [List.length_cons, pow_succ]
          ring

theorem beU64_lt (l : List Nat) (hlen : l.length ≤ 8) (hb : ∀ x ∈ l, x < 256) :
    beU64 l < 2 ^ 64 := by
  have h := beU64_bound l 0 hb
  calc beU64 l < (0 + 1) * 256 ^ l.length := h
    _ = 256 ^ l.length := by ring
    _ ≤ 256 ^ 8 := Nat.pow_le_pow_right (by norm_num) hlen
    _ = 2 ^ 64 := by norm_num

theorem hashWindow_length (h : Hash) (off : Nat) (hh : h.length = 32)
    (hoff : off ≤ 24) : (hashWindow h off).length = 8 := by
  simp [hashWindow, hh]
  omega

theorem hashWindow_bytes {h : Hash} {off : Nat} (hb : ∀ x ∈ h, x < 256) :
    ∀ x ∈ hashWindow h off, x < 256 := by
  intro x hx
  exact hb x (List.drop_subset _ _ (List.take_subset _ _ hx))

/-- A concrete hash whose first byte is the only non-zero one, telling
the offset-0 window apart from the offset-1 window. -/
def aHash6 : Hash := 1 :: List.replicate 31 0

/-- A concrete all-zero hash. -/
def zHash6 : Hash := List.replicate 32 0

/-- Counterexample to C6 as stated: with the account offset 0 and the
storage offset 1 (both in [0,24]), the source's storage bloom key — which
reads the *account* hash at the storage offset — differs from the spec's
formula, which reads the account hash at the account offset. -/
theorem C6_counterexample :
    (0 : Nat) ≤ 24 ∧ (1 : Nat) ≤ 24 ∧
    storageBloomHash 1 aHash6 zHash6 ≠ storageBloomHashSpec 0 1 aHash6 zHash6 := by
  refine ⟨by decide, by decide, by decide⟩

/-- C6 (amended): the storage bloom key reads *both* the account hash and
the slot hash at the process-global storage offset `off_s ∈ [0,24]`:
`be_u64(a[off_s..+8]) XOR be_u64(s[off_s..+8])`; the account bloom key is
`be_u64(h[off_a..+8])` at the account offset.  Both windows are genuine
8-byte big-endian 64-bit reads: each window has length 8 and each key is
below `2^64`. -/
theorem C6_storage_bloom_key (offA offS : Nat) (hA : offA ≤ 24) (hS : offS ≤ 24)
    (a s : Hash) (ha : a.length = 32) (hs : s.length = 32)
    (hab : ∀ x ∈ a, x < 256) (hsb : ∀ x ∈ s, x < 256) :
    storageBloomHash offS a s =
      Nat.xor (beU64 (hashWindow a offS)) (beU64 (hashWindow s offS)) ∧
    accountBloomHash offA a = beU64 (hashWindow a offA) ∧
    (hashWindow a offS).length = 8 ∧ (hashWindow s offS).length = 8 ∧
    (hashWindow a offA).length = 8 ∧
    accountBloomHash offA a < 2 ^ 64 ∧
    storageBloomHash offS a s < 2 ^ 64 := by
  have hwa := hashWindow_length a offS ha hS
  have hws := hashWindow_length s offS hs hS
  have hwa' := hashWindow_length a offA ha hA
  have hba := beU64_lt _ (le_of_eq hwa) (hashWindow_bytes hab)
  have hbs := beU64_lt _ (le_of_eq hws) (hashWindow_bytes hsb)
  have hba' := beU64_lt _ (le_of_eq hwa') (hashWindow_bytes hab)
  refine ⟨rfl, rfl, hwa, hws, hwa', hba', ?_⟩
  exact Nat.xor_lt_two_pow hba hbs

/-- Witness for the amended C6 at concrete offsets and hashes. -/
theorem C6_witness :
    storageBloomHash 1 aHash6 zHash6 =
      Nat.xor (beU64 (hashWindow aHash6 1)) (beU64 (hashWindow zHash6 1)) ∧
    accountBloomHash 0 aHash6 = beU64 (hashWindow aHash6 0) ∧
    (hashWindow aHash6 1).length = 8 ∧ (hashWindow zHash6 1).length = 8 ∧
    (hashWindow aHash6 0).length = 8 ∧
    accountBloomHash 0 aHash6 < 2 ^ 64 ∧
    storageBloomHash 1 aHash6 zHash6 < 2 ^ 64 :=
  C6_storage_bloom_key 0 1 (by decide) (by decide) aHash6 zHash6
    (by decide) (by decide) (by decide) (by decide)

/-! ## C7 -/

/-- A concrete layer with three storage slots under one account and no
cached lists, exhibiting the `StorageList` memory accounting. -/
def exLayer7 : diffLayer :=
  ⟨dummyDisk, kA, 0, false, [],
    [(kA, [(kA, some [1]), (kB, some [2]), (kS, some [3])])], none, [], []⟩

/-- Counterexample to C7 as stated: the first `StorageList` call on a
three-slot account charges `len(dl.storageList)*32 + 32 = 64` bytes to
`memory`, not the `3 * 32 = 96` bytes of the materialised list. -/
theorem C7_counterexample :
    (StorageList exLayer7 kA).2.memory ≠
      exLayer7.memory + (StorageList exLayer7 kA).1.length * 32 := by
  decide

/-- C7 (amended): the first call to a sorted key view returns exactly the
key set (a permutation of it), sorted ascending by lexicographic byte
order; the list is cached and later calls return it, and the layer,
unchanged.  `AccountList` charges `len(list) * 32` bytes to `memory`;
`StorageList`, however, charges `32 * (number of cached storage lists
after insertion) + 32` bytes, not the size of the materialised list. -/
theorem C7_sorted_views (dl : diffLayer) (a : Hash) (inner : SlotMap)
    (hA : dl.accountList = none)
    (hin : lookupM a dl.storageData = some inner)
    (hfirst : lookupM a dl.storageList = none) :
    ((AccountList dl).1).Perm (keysOf dl.accountData) ∧
    (AccountList dl).1.Pairwise (fun x y => hashLe x y = true) ∧
    AccountList (AccountList dl).2 = ((AccountList dl).1, (AccountList dl).2) ∧
    (AccountList dl).2.memory = dl.memory + (AccountList dl).1.length * 32 ∧
    ((StorageList dl a).1).Perm (keysOf inner) ∧
    (StorageList dl a).1.Pairwise (fun x y => hashLe x y = true) ∧
    StorageList (StorageList dl a).2 a = ((StorageList dl a).1, (StorageList dl a).2) ∧
    (StorageList dl a).2.memory =
      dl.memory + (dl.storageList.length + 1) * 32 + 32 := by
  have eA : AccountList dl =
      (sortHashes (keysOf dl.accountData),
        { dl with
          accountList := some (sortHashes (keysOf dl.accountData)),
          memory := dl.memory + (sortHashes (keysOf dl.accountData)).length * 32 }) := by
    simp [AccountList, hA]
  have eS : StorageList dl a =
      (sortHashes (keysOf inner),
        { dl with
          storageList := (a, sortHashes (keysOf inner)) :: dl.storageList,
          memory := dl.memory +
            ((a, sortHashes (keysOf inner)) :: dl.storageList).length * 32 + 32 }) := by
    simp [StorageList, hin, hfirst]
  refine ⟨?_, ?_, ?_, ?_, ?_, ?_, ?_, ?_⟩
  · rw [eA]; exact sortHashes_perm _
  · rw [eA]; exact sortHashes_sorted _
  · rw [eA]; simp [AccountList]
  · rw [eA]
  · rw [eS]; exact sortHashes_perm _
  · rw [eS]; exact sortHashes_sorted _
  · rw [eS]; simp [StorageList, hin, lookupM]
  · rw [eS]; simp [List.length_cons]

/-- A concrete fresh layer for the C7 witness: two accounts, one account
with two storage slots, no cached lists yet. -/
def exLayer7w : diffLayer :=
  ⟨dummyDisk, kA, 0, false, [(kB, some [1]), (kA, some [2])],
    [(kA, [(kS, some [3]), (kB, some [4])])], none, [], []⟩

/-- Witness for the amended C7 at the concrete fresh layer. -/
theorem C7_witness :
    ((AccountList exLayer7w).1).Perm (keysOf exLayer7w.accountData) ∧
    (AccountList exLayer7w).1.Pairwise (fun x y => hashLe x y = true) ∧
    AccountList (AccountList exLayer7w).2 =
      ((AccountList exLayer7w).1, (AccountList exLayer7w).2) ∧
    (AccountList exLayer7w).2.memory =
      exLayer7w.memory + (AccountList exLayer7w).1.length * 32 ∧
    ((StorageList exLayer7w kA).1).Perm (keysOf [(kS, (some [3] : Blob)), (kB, some [4])]) ∧
    (StorageList exLayer7w kA).1.Pairwise (fun x y => hashLe x y = true) ∧
    StorageList (StorageList exLayer7w kA).2 kA =
      ((StorageList exLayer7w kA).1, (StorageList exLayer7w kA).2) ∧
    (StorageList exLayer7w kA).2.memory =
      exLayer7w.memory + (exLayer7w.storageList.length + 1) * 32 + 32 :=
  C7_sorted_views exLayer7w kA [(kS, some [3]), (kB, some [4])] rfl (by decide) rfl

/-! ## C8 -/

/-- C8: the derived bloom tuning constants satisfy the spec's formulas
(real arithmetic modelling the source's `float64` expressions):
`aggregatorItemLimit` is the floor of `4 MiB / 42` (`uint64` division
truncates, which on non-negative values is the floor, and the real-number
floor agrees), `bloomSize` is
`ceil(itemLimit · ln(targetError) / ln(1/2^ln 2))` — whose denominator
equals `-(ln 2)²` — and `bloomFuncs` is
`round((bloomSize / itemLimit) · ln 2)`. -/
theorem C8_tuning_constants :
    aggregatorItemLimit = aggregatorMemoryLimit / 42 ∧
    aggregatorItemLimit = 99864 ∧
    ⌊(aggregatorMemoryLimit : ℝ) / 42⌋ = (aggregatorItemLimit : ℤ) ∧
    bloomSize = bloomSizeSpec ∧
    bloomFuncs = bloomFuncsSpec ∧
    bloomSize = ⌈(aggregatorItemLimit : ℝ) * Real.log bloomTargetError /
      (-(Real.log 2 ^ 2))⌉ ∧
    bloomFuncs = round (((bloomSize : ℝ) / (aggregatorItemLimit : ℝ)) * Real.log 2) := by
  have hden : Real.log (1 / (2 : ℝ) ^ Real.log 2) = -(Real.log 2 ^ 2) := by
    rw [Real.log_div one_ne_zero (ne_of_gt (Real.rpow_pos_of_pos two_pos _)),
      Real.log_one, Real.log_rpow two_pos]
    ring
  refine ⟨rfl, by norm_num [aggregatorItemLimit, aggregatorMemoryLimit], ?_, rfl, rfl, ?_, rfl⟩
  · rw [show (aggregatorMemoryLimit : ℝ) = 4194304 by norm_num [aggregatorMemoryLimit]]
    rw [show (aggregatorItemLimit : ℤ) = 99864 by norm_num [aggregatorItemLimit, aggregatorMemoryLimit]]
    rw [Int.floor_eq_iff]
    constructor <;> norm_num
  · rw [bloomSize, hden]

/-! ## C3 -/

/-- C3: on any chain built by `newDiffLayer`/`Update`, the top layer's
bloom contains the mixed hash of every account key and every
(account, slot) key touched by that layer and by every diff ancestor up
to (but excluding) the origin disk layer; and the layer `flatten`
produces preserves this superset property for the keys it holds. -/
theorem C3_bloom_superset (offA offS : Nat) (dl : diffLayer) (p : snapshot)
    (hb : updatesBuilt offA offS (.diff dl p)) :
    (∀ L ∈ layersOf (.diff dl p),
      (∀ h, accountTouched L h → accountBloomHash offA h ∈ dl.diffed) ∧
      (∀ a st, storageTouched L a st → storageBloomHash offS a st ∈ dl.diffed)) ∧
    (∀ dl' p', flattenDiff dl p = .ok (dl', p') →
      (∀ h, accountTouched dl' h → accountBloomHash offA h ∈ dl'.diffed) ∧
      (∀ a st, storageTouched dl' a st → storageBloomHash offS a st ∈ dl'.diffed)) := by
  have hacc := built_bloom_acc hb
  have hstor := built_bloom_stor hb
  refine ⟨fun L hL => ⟨fun h ht => hacc L hL h ht, fun a st ht => hstor L hL a st ht⟩, ?_⟩
  intro dl' p' hok
  have hdiff := flattenDiff_diffed hok
  constructor
  · intro h ht
    obtain ⟨L, hL, hLt⟩ := accountTouched_flattenDiff hok ht
    rw [hdiff]
    exact hacc L hL h hLt
  · intro a st ht
    obtain ⟨L, hL, hLt⟩ := storageTouched_flattenDiff hok ht
    rw [hdiff]
    exact hstor L hL a st hLt

/-- The first layer of the witness chains: one account and one storage
slot written on top of the empty disk. -/
def exD1 : diffLayer :=
  newDiffLayer 0 0 (.disk dummyDisk) kB [(kA, some [1])] [(kA, [(kS, some [9])])]

/-- The second layer of the witness chains: overwrites account `kA`. -/
def exD2 : diffLayer :=
  newDiffLayer 0 0 (.diff exD1 (.disk dummyDisk)) kS [(kA, some [2])] []

/-- Witness for C3 on the concrete two-layer chain. -/
theorem C3_witness :
    (∀ L ∈ layersOf (.diff exD2 (.diff exD1 (.disk dummyDisk))),
      (∀ h, accountTouched L h → accountBloomHash 0 h ∈ exD2.diffed) ∧
      (∀ a st, storageTouched L a st → storageBloomHash 0 a st ∈ exD2.diffed)) ∧
    (∀ dl' p', flattenDiff exD2 (.diff exD1 (.disk dummyDisk)) = .ok (dl', p') →
      (∀ h, accountTouched dl' h → accountBloomHash 0 h ∈ dl'.diffed) ∧
      (∀ a st, storageTouched dl' a st → storageBloomHash 0 a st ∈ dl'.diffed)) :=
  C3_bloom_superset 0 0 exD2 (.diff exD1 (.disk dummyDisk)) (by
    show updatesBuilt 0 0 (.diff (newDiffLayer 0 0 (.diff exD1 (.disk dummyDisk)) kS
      [(kA, some [2])] []) (.diff exD1 (.disk dummyDisk)))
    refine updatesBuilt.step _ _ _ _ ?_ (by decide) (by decide) (by decide)
    show updatesBuilt 0 0 (.diff (newDiffLayer 0 0 (.disk dummyDisk) kB
      [(kA, some [1])] [(kA, [(kS, some [9])])]) (.disk dummyDisk))
    exact updatesBuilt.step _ _ _ _ (updatesBuilt.base dummyDisk)
      (by decide) (by decide) (by decide))

/-! ## C1 -/

/-- C1: on any chain built by a sequence of updates, flattening succeeds
and the resulting layer answers every account read and every storage read
exactly as the pre-flatten chain did; in particular a key bound in the
child layer's delta (so in particular a key present in both the parent's
and the child's deltas) is answered with the child's value after the
flatten. -/
theorem C1_flatten_equiv (offA offS : Nat) (dl : diffLayer) (p : snapshot)
    (hb : updatesBuilt offA offS (.diff dl p)) :
    ∃ dl' p', flattenDiff dl p = .ok (dl', p') ∧
      (∀ h, AccountRLP offA (.diff dl' p') h = AccountRLP offA (.diff dl p) h) ∧
      (∀ a st, Storage offS (.diff dl' p') a st = Storage offS (.diff dl p) a st) ∧
      (∀ h v, lookupM h dl.accountData = some v →
        AccountRLP offA (.diff dl' p') h = .ok v) ∧
      (∀ a st v cinner, lookupM a dl.storageData = some cinner →
        lookupM st cinner = some v →
        Storage offS (.diff dl' p') a st = .ok v) := by
  have hwf : chainWF (chainBase p) (.diff dl p) := built_wf hb
  obtain ⟨dl', p', hok, hstale', horig', hdiff', hroot'⟩ := flattenDiff_ok p dl hwf
  have hdl : dl.stale = false := hwf.1
  have horig : dl.origin = chainBase p := hwf.2.1
  have haccEq : ∀ h, AccountRLP offA (.diff dl' p') h = AccountRLP offA (.diff dl p) h := by
    intro h
    by_cases hbl : accountBloomHash offA h ∈ dl.diffed
    · simp only [AccountRLP, hstale', hdl, hdiff', hbl, if_true, Bool.false_eq_true, if_false]
      exact accountRLPw_flatten hwf hok h
    · simp only [AccountRLP, hstale', hdl, hdiff', hbl, if_false, Bool.false_eq_true]
      rw [horig', horig]
  have hstorEq : ∀ a st, Storage offS (.diff dl' p') a st = Storage offS (.diff dl p) a st := by
    intro a st
    by_cases hbl : storageBloomHash offS a st ∈ dl.diffed
    · simp only [Storage, hstale', hdl, hdiff', hbl, if_true, Bool.false_eq_true, if_false]
      exact storagew_flatten hwf hok a st
    · simp only [Storage, hstale', hdl, hdiff', hbl, if_false, Bool.false_eq_true]
      rw [horig', horig]
  refine ⟨dl', p', hok, haccEq, hstorEq, ?_, ?_⟩
  · intro h v hv
    have hbl : accountBloomHash offA h ∈ dl.diffed :=
      built_bloom_acc hb dl (List.mem_cons_self _ _) h (mem_keysOf (lookupM_mem hv))
    rw [haccEq h]
    simp [AccountRLP, hdl, hbl, accountRLPw, hv]
  · intro a st v cinner hcin hst
    have hbl : storageBloomHash offS a st ∈ dl.diffed :=
      built_bloom_stor hb dl (List.mem_cons_self _ _) a st
        ⟨cinner, lookupM_mem hcin, mem_keysOf (lookupM_mem hst)⟩
    rw [hstorEq a st]
    simp [Storage, hdl, hbl, storagew, hcin, hst]

/-- Witness for C1 on the concrete two-layer chain: `kA` is present in
both deltas, and the flattened layer keeps answering with the child's
value. -/
theorem C1_witness :
    ∃ dl' p', flattenDiff exD2 (.diff exD1 (.disk dummyDisk)) = .ok (dl', p') ∧
      (∀ h, AccountRLP 0 (.diff dl' p') h =
        AccountRLP 0 (.diff exD2 (.diff exD1 (.disk dummyDisk))) h) ∧
      (∀ a st, Storage 0 (.diff dl' p') a st =
        Storage 0 (.diff exD2 (.diff exD1 (.disk dummyDisk))) a st) ∧
      (∀ h v, lookupM h exD2.accountData = some v →
        AccountRLP 0 (.diff dl' p') h = .ok v) ∧
      (∀ a st v cinner, lookupM a exD2.storageData = some cinner →
        lookupM st cinner = some v →
        Storage 0 (.diff dl' p') a st = .ok v) :=
  C1_flatten_equiv 0 0 exD2 (.diff exD1 (.disk dummyDisk)) (by
    show updatesBuilt 0 0 (.diff (newDiffLayer 0 0 (.diff exD1 (.disk dummyDisk)) kS
      [(kA, some [2])] []) (.diff exD1 (.disk dummyDisk)))
    refine updatesBuilt.step _ _ _ _ ?_ (by decide) (by decide) (by decide)
    show updatesBuilt 0 0 (.diff (newDiffLayer 0 0 (.disk dummyDisk) kB
      [(kA, some [1])] [(kA, [(kS, some [9])])]) (.disk dummyDisk))
    exact updatesBuilt.step _ _ _ _ (updatesBuilt.base dummyDisk)
      (by decide) (by decide) (by decide))
